import Mathlib

/-!
# Verification of the local-directory → remote-file-share mirroring component

Shallow embedding of `src/constructs/file-share.ts` (the `FileShareConstruct`
class): the tree walker `getAllFiles`, the directory-set extractor
`getDirectories`, the classifier `categorizeFiles`, and the plan assembly in
`createFileShare`, together with the POSIX path primitives from Node's `path`
module that they call (`dirname`, `basename`, `relative`, `join`).

Paths are modelled as Lean `String`s.  The Node path functions are embedded for
POSIX normalized inputs (absolute roots without trailing slash, as produced by
`path.join(__dirname, ...)` in the source): they split a path on `'/'`, operate
on the nonempty segments, and re-render.  The filesystem visible to
`fs.readdirSync` / `fs.statSync` is modelled by the inductive `FsTree`, whose
directory nodes carry the `readdirSync` listing in order.
-/

namespace FileShare

/-- Split a character list at every `'/'` occurrence, keeping empty groups
(the semantics of splitting a path string on the POSIX separator). -/
def splitSlash : List Char → List (List Char)
  | [] => [[]]
  | c :: rest =>
    if c = '/' then [] :: splitSlash rest
    else
      match splitSlash rest with
      | [] => [[c]]
      | g :: gs => (c :: g) :: gs

/-- The nonempty segments of a path string: `"/a/b" ↦ ["a", "b"]`,
`"a/b" ↦ ["a", "b"]`, `"" ↦ []`. -/
def pathSegs (s : String) : List String :=
  ((splitSlash s.data).map String.mk).filter (fun x => x ≠ "")

/-- Whether a path string is absolute (starts with `'/'`), as Node's
`path.posix` functions test via `charCodeAt(0) === 47`. -/
def isAbs (s : String) : Bool := s.data.head? == some '/'

/-- Render a relative path from its segments: `["a", "b"] ↦ "a/b"`, `[] ↦ ""`. -/
def renderRel : List String → String
  | [] => ""
  | [a] => a
  | a :: rest => a ++ "/" ++ renderRel rest

/-- Render an absolute path from its segments: `["a", "b"] ↦ "/a/b"`, `[] ↦ "/"`. -/
def renderAbs (l : List String) : String := "/" ++ renderRel l

/-- Node `path.posix.dirname` on normalized paths: drop the last segment;
a relative path with fewer than two segments has dirname `"."`, an absolute
path with fewer than two segments has dirname `"/"`. -/
def dirname (p : String) : String :=
  if isAbs p then
    match (pathSegs p).dropLast with
    | [] => "/"
    | l => renderAbs l
  else
    match (pathSegs p).dropLast with
    | [] => "."
    | l => renderRel l

/-- Node `path.posix.basename` on normalized paths: the last segment
(`""` when there is none). -/
def basename (p : String) : String := ((pathSegs p).getLast?).getD ""

/-- Node `path.posix.join dir item` for a normalized absolute `dir` and a plain
directory-entry name `item` (the only shape `getAllFiles` joins). -/
def pjoin (dir item : String) : String :=
  if dir = "/" then dir ++ item else dir ++ "/" ++ item

/-- Segment-level core of Node `path.posix.relative`: strip the common prefix,
then one `".."` per remaining base segment followed by the remaining target
segments. -/
def relSegs : List String → List String → List String
  | [], t => t
  | f, [] => f.map (fun _ => "..")
  | a :: f, b :: t =>
    if a = b then relSegs f t
    else ((a :: f).map (fun _ => "..")) ++ b :: t

/-- Node `path.posix.relative base p` for resolved (absolute, normalized)
inputs. -/
def relative (base p : String) : String :=
  renderRel (relSegs (pathSegs base) (pathSegs p))

/-! ## Basic facts about the path primitives -/

theorem String.data_inj {a b : String} (h : a.data = b.data) : a = b := by
  cases a
  cases b
  exact congrArg String.mk h

theorem splitSlash_ne_nil (l : List Char) : splitSlash l ≠ [] := by
  match l with
  | [] => simp [splitSlash]
  | c :: rest =>
    simp only [splitSlash]
    split
    · simp
    · split
      · simp
      · simp

theorem splitSlash_append (a b : List Char) :
    splitSlash (a ++ '/' :: b) = splitSlash a ++ splitSlash b := by
  induction a with
  | nil => simp [splitSlash]
  | cons c rest ih =>
    by_cases hc : c = '/'
    · subst hc
      simp [splitSlash, ih]
    · cases h : splitSlash rest with
      | nil => exact absurd h (splitSlash_ne_nil rest)
      | cons g gs =>
        simp only [List.cons_append, splitSlash, if_neg hc, List.append_eq]
        rw [ih, h]
        simp

theorem splitSlash_no_slash {l : List Char} (h : '/' ∉ l) : splitSlash l = [l] := by
  induction l with
  | nil => simp [splitSlash]
  | cons c rest ih =>
    simp only [List.mem_cons, not_or] at h
    have hc : ¬ c = '/' := fun hc => h.1 hc.symm
    simp [splitSlash, if_neg hc, ih h.2]

theorem mem_splitSlash_no_slash {l : List Char} {g : List Char}
    (hg : g ∈ splitSlash l) : '/' ∉ g := by
  induction l generalizing g with
  | nil =>
    simp only [splitSlash, List.mem_singleton] at hg
    subst hg; simp
  | cons c rest ih =>
    simp only [splitSlash] at hg
    split at hg
    · rcases List.mem_cons.mp hg with h | h
      · subst h; simp
      · exact ih h
    · rename_i hc
      cases h : splitSlash rest with
      | nil => exact absurd h (splitSlash_ne_nil rest)
      | cons g0 gs =>
        rw [h] at hg
        rcases List.mem_cons.mp hg with h1 | h1
        · subst h1
          intro hmem
          rcases List.mem_cons.mp hmem with h2 | h2
          · exact hc h2.symm
          · exact ih (h ▸ List.mem_cons_self g0 gs) h2
        · exact ih (h ▸ List.mem_cons_of_mem g0 h1)

/-- A plausible path segment: nonempty and free of the separator.  Every
element of `pathSegs p` satisfies this. -/
def SegOk (s : String) : Prop := s.data ≠ [] ∧ '/' ∉ s.data

theorem ne_empty_of_data_ne_nil {s : String} (h : s.data ≠ []) : s ≠ "" :=
  fun he => h (by rw [he])

theorem pathSegs_empty : pathSegs "" = [] := rfl

theorem data_append_slash (x y : String) :
    (x ++ "/" ++ y).data = x.data ++ '/' :: y.data := by
  rw [String.data_append, String.data_append]
  simp

theorem pathSegs_append_slash (x y : String) :
    pathSegs (x ++ "/" ++ y) = pathSegs x ++ pathSegs y := by
  unfold pathSegs
  rw [data_append_slash, splitSlash_append, List.map_append, List.filter_append]

theorem pathSegs_single {n : String} (h : SegOk n) : pathSegs n = [n] := by
  unfold pathSegs
  rw [splitSlash_no_slash h.2]
  simp [ne_empty_of_data_ne_nil h.1]

theorem pathSegs_slash_prepend (y : String) : pathSegs ("/" ++ y) = pathSegs y := by
  unfold pathSegs
  have hd : ("/" ++ y).data = '/' :: y.data := by
    rw [String.data_append]; rfl
  rw [hd]
  have : splitSlash ('/' :: y.data) = [] :: splitSlash y.data := by
    simp [splitSlash]
  rw [this]
  simp

theorem renderRel_cons₂ (a b : String) (l : List String) :
    renderRel (a :: b :: l) = a ++ "/" ++ renderRel (b :: l) := rfl

theorem pathSegs_renderRel {l : List String} (h : ∀ s ∈ l, SegOk s) :
    pathSegs (renderRel l) = l := by
  induction l with
  | nil => exact pathSegs_empty
  | cons a l ih =>
    cases l with
    | nil => exact pathSegs_single (h a (List.mem_singleton.mpr rfl))
    | cons b t =>
      rw [renderRel_cons₂, pathSegs_append_slash,
        pathSegs_single (h a (List.mem_cons_self a _)),
        ih (fun s hs => h s (List.mem_cons_of_mem a hs))]
      rfl

theorem pathSegs_renderAbs {l : List String} (h : ∀ s ∈ l, SegOk s) :
    pathSegs (renderAbs l) = l := by
  unfold renderAbs
  rw [pathSegs_slash_prepend, pathSegs_renderRel h]

theorem mem_pathSegs_segOk {p s : String} (h : s ∈ pathSegs p) : SegOk s := by
  unfold pathSegs at h
  rw [List.mem_filter] at h
  obtain ⟨hm, hne⟩ := h
  rw [List.mem_map] at hm
  obtain ⟨g, hg, rfl⟩ := hm
  refine ⟨?_, mem_splitSlash_no_slash hg⟩
  intro hdata
  apply (by simpa using hne : String.mk g ≠ "")
  exact String.data_inj (by simpa using hdata)

theorem isAbs_renderAbs (l : List String) : isAbs (renderAbs l) = true := by
  unfold isAbs renderAbs
  rw [String.data_append]
  rfl

theorem renderRel_data_ne_nil {l : List String} (h : ∀ s ∈ l, SegOk s)
    (hne : l ≠ []) : (renderRel l).data ≠ [] := by
  cases l with
  | nil => exact absurd rfl hne
  | cons a t =>
    cases t with
    | nil => exact (h a (List.mem_singleton.mpr rfl)).1
    | cons b t' =>
      rw [renderRel_cons₂, data_append_slash]
      simp

theorem isAbs_renderRel {l : List String} (h : ∀ s ∈ l, SegOk s) :
    isAbs (renderRel l) = false := by
  cases l with
  | nil => rfl
  | cons a t =>
    have ha : SegOk a := h a (List.mem_cons_self a _)
    have hhead : ∀ c, a.data.head? = some c → c ≠ '/' := by
      intro c hc hc'
      subst hc'
      exact ha.2 (List.mem_of_mem_head? hc)
    cases t with
    | nil =>
      show (a.data.head? == some '/') = false
      cases hd : a.data with
      | nil => exact absurd hd ha.1
      | cons c r =>
        simp only [List.head?_cons, beq_eq_false_iff_ne, ne_eq, Option.some.injEq]
        exact hhead c (by rw [hd]; rfl)
    | cons b t' =>
      rw [renderRel_cons₂]
      show ((a ++ "/" ++ renderRel (b :: t')).data.head? == some '/') = false
      rw [data_append_slash]
      cases hd : a.data with
      | nil => exact absurd hd ha.1
      | cons c r =>
        simp only [List.cons_append, List.head?_cons, beq_eq_false_iff_ne, ne_eq,
          Option.some.injEq]
        exact hhead c (by rw [hd]; rfl)

theorem abs_ne_rel {x y : String} (hx : isAbs x = true) (hy : isAbs y = false) :
    x ≠ y := by
  intro h
  subst h
  rw [hx] at hy
  exact absurd hy (by decide)

theorem renderAbs_inj {l₁ l₂ : List String} (h₁ : ∀ s ∈ l₁, SegOk s)
    (h₂ : ∀ s ∈ l₂, SegOk s) (h : renderAbs l₁ = renderAbs l₂) : l₁ = l₂ := by
  have := congrArg pathSegs h
  rwa [pathSegs_renderAbs h₁, pathSegs_renderAbs h₂] at this

theorem renderRel_append_single {l : List String} (n : String) (h : l ≠ []) :
    renderRel (l ++ [n]) = renderRel l ++ "/" ++ n := by
  induction l with
  | nil => exact absurd rfl h
  | cons a t ih =>
    cases t with
    | nil => rfl
    | cons b t' =>
      calc renderRel ((a :: b :: t') ++ [n])
          = a ++ "/" ++ renderRel ((b :: t') ++ [n]) := rfl
        _ = a ++ "/" ++ (renderRel (b :: t') ++ "/" ++ n) := by
              rw [ih (List.cons_ne_nil b t')]
        _ = renderRel (a :: b :: t') ++ "/" ++ n := by
              rw [renderRel_cons₂]
              simp [String.append_assoc]

theorem renderAbs_nil : renderAbs [] = "/" := rfl

theorem renderAbs_ne_slash {l : List String} (h : ∀ s ∈ l, SegOk s)
    (hne : l ≠ []) : renderAbs l ≠ "/" := by
  intro he
  have := congrArg String.data he
  rw [renderAbs, String.data_append] at this
  have hl : (renderRel l).data = [] := by
    have : ('/' : Char) :: (renderRel l).data = ['/'] := by simpa using this
    simpa using this
  exact renderRel_data_ne_nil h hne hl

theorem pjoin_renderAbs {l : List String} (n : String) (h : ∀ s ∈ l, SegOk s) :
    pjoin (renderAbs l) n = renderAbs (l ++ [n]) := by
  cases l with
  | nil =>
    show pjoin "/" n = renderAbs [n]
    rw [pjoin, if_pos rfl]
    rfl
  | cons a t =>
    rw [pjoin, if_neg (renderAbs_ne_slash h (List.cons_ne_nil a t)), renderAbs,
      renderAbs, renderRel_append_single n (List.cons_ne_nil a t)]
    simp [String.append_assoc]

theorem dirname_renderRel {l : List String} (h : ∀ s ∈ l, SegOk s) :
    dirname (renderRel l) =
      if l.dropLast = [] then "." else renderRel l.dropLast := by
  unfold dirname
  rw [isAbs_renderRel h, pathSegs_renderRel h]
  cases hd : l.dropLast with
  | nil => simp
  | cons a t => simp

theorem dirname_renderAbs {l : List String} (h : ∀ s ∈ l, SegOk s) :
    dirname (renderAbs l) =
      if l.dropLast = [] then "/" else renderAbs l.dropLast := by
  unfold dirname
  rw [isAbs_renderAbs, pathSegs_renderAbs h]
  cases hd : l.dropLast with
  | nil => simp
  | cons a t => simp

theorem relSegs_nil_left (t : List String) : relSegs [] t = t := by
  cases t <;> rfl

theorem relSegs_append (l m : List String) : relSegs l (l ++ m) = m := by
  induction l with
  | nil => simp [relSegs_nil_left]
  | cons a t ih => simp [relSegs, ih]

theorem mem_relSegs {a b : List String} {s : String} (h : s ∈ relSegs a b) :
    s = ".." ∨ s ∈ b := by
  induction a generalizing b with
  | nil => exact Or.inr (relSegs_nil_left b ▸ h)
  | cons x a' ih =>
    cases b with
    | nil =>
      simp only [relSegs, List.mem_map] at h
      obtain ⟨_, _, rfl⟩ := h
      exact Or.inl rfl
    | cons y t =>
      simp only [relSegs] at h
      split at h
      · rcases ih h with h1 | h1
        · exact Or.inl h1
        · exact Or.inr (List.mem_cons_of_mem y h1)
      · rw [List.mem_append] at h
        rcases h with h1 | h1
        · rw [List.mem_map] at h1
          obtain ⟨_, _, rfl⟩ := h1
          exact Or.inl rfl
        · exact Or.inr h1

theorem segOk_dotdot : SegOk ".." := ⟨by decide, by decide⟩

theorem relative_segs_segOk (base p : String) :
    ∀ s ∈ relSegs (pathSegs base) (pathSegs p), SegOk s := by
  intro s hs
  rcases mem_relSegs hs with h | h
  · subst h; exact segOk_dotdot
  · exact mem_pathSegs_segOk h

theorem isAbs_relative (base p : String) : isAbs (relative base p) = false :=
  isAbs_renderRel (relative_segs_segOk base p)

theorem isAbs_dirname_relative (base p : String) :
    isAbs (dirname (relative base p)) = false := by
  unfold relative
  rw [dirname_renderRel (relative_segs_segOk base p)]
  split
  · rfl
  · exact isAbs_renderRel
      (fun s hs => relative_segs_segOk base p s (List.mem_of_mem_dropLast hs))

theorem renderRel_ne_dotslash {l : List String} (h : ∀ s ∈ l, SegOk s) :
    renderRel l ≠ "./" := by
  cases l with
  | nil => decide
  | cons a t =>
    cases t with
    | nil =>
      intro he
      have := (h a (List.mem_singleton.mpr rfl)).2
      rw [show renderRel [a] = a from rfl] at he
      subst he
      exact this (by decide)
    | cons b t' =>
      intro he
      have hlen : (renderRel (a :: b :: t')).data.length =
          ("./" : String).data.length := by rw [he]
      rw [renderRel_cons₂, data_append_slash,
        show ("./" : String).data.length = 2 by decide] at hlen
      simp only [List.length_append, List.length_cons] at hlen
      have hb : (renderRel (b :: t')).data ≠ [] :=
        renderRel_data_ne_nil (fun s hs => h s (List.mem_cons_of_mem a hs))
          (List.cons_ne_nil b t')
      have ha : (a.data.length) ≥ 1 :=
        Nat.one_le_iff_ne_zero.mpr
          (fun h0 => (h a (List.mem_cons_self a _)).1 (List.eq_nil_of_length_eq_zero h0))
      have hb' : (renderRel (b :: t')).data.length ≥ 1 :=
        Nat.one_le_iff_ne_zero.mpr
          (fun h0 => hb (List.eq_nil_of_length_eq_zero h0))
      have : ("./" : String).data.length = 2 := by decide
      omega

theorem dirname_ne_dotslash (p : String) : dirname p ≠ "./" := by
  unfold dirname
  split
  · cases hd : (pathSegs p).dropLast with
    | nil => decide
    | cons a t =>
      exact abs_ne_rel (isAbs_renderAbs (a :: t)) (by decide)
  · cases hd : (pathSegs p).dropLast with
    | nil => decide
    | cons a t =>
      exact renderRel_ne_dotslash
        (fun s hs => mem_pathSegs_segOk (List.mem_of_mem_dropLast (hd ▸ hs)))

/-! ## The local filesystem and the tree walker (`getAllFiles`) -/

/-- A local filesystem subtree as seen by `fs.statSync` / `fs.readdirSync`:
a regular file, or a directory whose association list carries the
`readdirSync` listing in order. -/
inductive FsTree where
  | file : FsTree
  | dir : List (String × FsTree) → FsTree

/-- The errors `fs.readdirSync` raises on a bad root: `ENOENT` when the path
does not exist (the spec's `NotFoundError`) and `ENOTDIR` when it names a
regular file (the spec's `NotADirectoryError`). -/
inductive FsError where
  | notFound
  | notADirectory
deriving DecidableEq

mutual
/-- The recursion of `getAllFiles` below the root: a file contributes its own
full path, a directory contributes the files of each entry at
`path.join(dir, item)`, in listing order. -/
def filesUnder : FsTree → String → List String
  | .file, cur => [cur]
  | .dir es, cur => filesUnderList es cur
/-- `filesUnder` mapped over a `readdirSync` listing, concatenating results
in order (the `for (const item of items)` loop of `getAllFiles`). -/
def filesUnderList : List (String × FsTree) → String → List String
  | [], _ => []
  | (n, t) :: es, cur => filesUnder t (pjoin cur n) ++ filesUnderList es cur
end

/-- `getAllFiles(dir)` from `file-share.ts`: `readdirSync` on a missing root
throws `ENOENT`, on a regular file `ENOTDIR`; otherwise every regular file
reachable from the root is returned, recursing into subdirectories. -/
def getAllFiles (node : Option FsTree) (dir : String) : Except FsError (List String) :=
  match node with
  | none => .error .notFound
  | some .file => .error .notADirectory
  | some (.dir es) => .ok (filesUnderList es dir)

/-- A name `readdirSync` can actually return as a directory entry: nonempty,
free of the path separator, and neither `"."` nor `".."`. -/
def validNameB (n : String) : Bool :=
  !n.data.isEmpty && !(n.data.contains '/') && !(n == ".") && !(n == "..")

mutual
/-- Every entry name in the subtree is a `validNameB` name. -/
def validTree : FsTree → Bool
  | .file => true
  | .dir es => validEntries es
def validEntries : List (String × FsTree) → Bool
  | [] => true
  | (n, t) :: es => validNameB n && validTree t && validEntries es
end

/-! ## The directory-set extractor, classifier and plan assembly -/

/-- Code-unit comparison `a ≤ b` on character lists — how the default
comparator of JS `Array.prototype.sort` orders strings. -/
def charListLe : List Char → List Char → Bool
  | [], _ => true
  | _ :: _, [] => false
  | a :: as, b :: bs =>
    if a.toNat < b.toNat then true
    else if b.toNat < a.toNat then false
    else charListLe as bs

/-- Lexicographic string comparison by code units. -/
def strLe (a b : String) : Bool := charListLe a.data b.data

/-- Insert a string into a `strLe`-sorted list, keeping it sorted. -/
def insertSorted (a : String) : List String → List String
  | [] => [a]
  | b :: bs => if strLe a b then a :: b :: bs else b :: insertSorted a bs

/-- `Array.from(set).sort()`: since the input (a JS `Set` enumeration) has no
duplicates and `strLe` is total, the sorted permutation is unique, so any
comparison sort models `Array.prototype.sort`; insertion sort keeps the
definition structurally recursive. -/
def sortStrings : List String → List String
  | [] => []
  | a :: as => insertSorted a (sortStrings as)

/-- The loop body of `getDirectories`: compute
`dir = dirname(relative(mountDir, file))` and add it to the accumulated
`Set` (modelled as the insertion-ordered duplicate-free list `acc`) unless it
is `''`, the mount directory itself, or `'.'`. -/
def addDir (mountDir : String) (acc : List String) (file : String) : List String :=
  let dir := dirname (relative mountDir file)
  if dir ≠ "" ∧ dir ≠ mountDir ∧ dir ≠ "." then
    if dir ∈ acc then acc else acc ++ [dir]
  else acc

/-- `getDirectories(files, mountDir)` from `file-share.ts`: the unique
parent directories of the files relative to the mount directory, sorted. -/
def getDirectories (files : List String) (mountDir : String) : List String :=
  sortStrings (files.foldl (addDir mountDir) [])

/-- `categorizeFiles(files, mountDir)` from `file-share.ts`: split the file
list into `(rootFiles, subdirFiles)` by `path.dirname(file) === mountDir`,
preserving input order in both parts. -/
def categorizeFiles (files : List String) (mountDir : String) :
    List String × List String :=
  files.partition (fun file => dirname file == mountDir)

/-- A `StorageShareFile` creation as planned by `createFileShare`: its `name`,
its `source` local path, its optional `path` (the remote parent directory,
absent for root-level files), and the `dependsOn` list of remote directory
names it waits for. -/
structure RemoteFile where
  name : String
  source : String
  path? : Option String
  dependsOn : List String
deriving DecidableEq

/-- The provisioning plan a `createFileShare` call hands to the engine: the
`StorageShareDirectory` names in creation order and the `StorageShareFile`
descriptors (root-level files first, then nested files, each part in
enumeration order). -/
structure MirrorPlan where
  directories : List String
  files : List RemoteFile
deriving DecidableEq

/-- The plan-building core of `createFileShare(props)` from `file-share.ts`:
enumerate files, extract the directory set, categorize, then emit one
`StorageShareFile` per root file (no `path`) and per subdirectory file
(with `path` guarded by the `=== './'` conditional of the source), every
file depending on the whole directory set. -/
def createFileShare (node : Option FsTree) (mountDir : String) :
    Except FsError MirrorPlan :=
  match getAllFiles node mountDir with
  | .error e => .error e
  | .ok files =>
    let directories := getDirectories files mountDir
    let categorized := categorizeFiles files mountDir
    let rootRemote := categorized.1.map (fun file =>
      { name := basename file, source := file, path? := none,
        dependsOn := directories : RemoteFile })
    let subdirRemote := categorized.2.map (fun file =>
      let relativePath := relative mountDir file
      { name := basename file, source := file,
        path? := some (if dirname relativePath = "./" then "./"
          else dirname relativePath),
        dependsOn := directories : RemoteFile })
    .ok { directories := directories, files := rootRemote ++ subdirRemote }

/-- Modelled from the spec for claim C9 (refinement): the same plan builder
with the nested file's remote path emitted as `dirname(relativePath)`
unconditionally, without the `=== './'` conditional. -/
def createFileShareUnconditional (node : Option FsTree) (mountDir : String) :
    Except FsError MirrorPlan :=
  match getAllFiles node mountDir with
  | .error e => .error e
  | .ok files =>
    let directories := getDirectories files mountDir
    let categorized := categorizeFiles files mountDir
    let rootRemote := categorized.1.map (fun file =>
      { name := basename file, source := file, path? := none,
        dependsOn := directories : RemoteFile })
    let subdirRemote := categorized.2.map (fun file =>
      let relativePath := relative mountDir file
      { name := basename file, source := file,
        path? := some (dirname relativePath),
        dependsOn := directories : RemoteFile })
    .ok { directories := directories, files := rootRemote ++ subdirRemote }

/-- Modelled from the spec for claim C10 (refinement): the loop body of a
directory-set extractor that excludes only `""` and `"."`, dropping the
comparison against the mount directory itself. -/
def addDirNoRootCheck (mountDir : String) (acc : List String) (file : String) :
    List String :=
  let dir := dirname (relative mountDir file)
  if dir ≠ "" ∧ dir ≠ "." then
    if dir ∈ acc then acc else acc ++ [dir]
  else acc

/-- Modelled from the spec for claim C10 (refinement): `getDirectories`
without the root-path exclusion. -/
def getDirectoriesNoRootCheck (files : List String) (mountDir : String) :
    List String :=
  sortStrings (files.foldl (addDirNoRootCheck mountDir) [])

/-- The quantity `D` of claim C1: the distinct parent directories, relative to
the root, of the enumerated files that do not live directly in the root. -/
def distinctNestedDirs (files : List String) (root : String) : List String :=
  ((files.filter (fun f => dirname f != root)).map
    (fun f => dirname (relative root f))).dedup


/-! ## Facts about the comparator and the sort -/

theorem charListLe_total : ∀ (a b : List Char), (charListLe a b || charListLe b a) = true
  | [], b => by simp [charListLe]
  | a :: as, [] => by simp [charListLe]
  | a :: as, b :: bs => by
    by_cases h1 : a.toNat < b.toNat
    · have : charListLe (a :: as) (b :: bs) = true := by
        rw [charListLe, if_pos h1]
      simp [this]
    · by_cases h2 : b.toNat < a.toNat
      · have : charListLe (b :: bs) (a :: as) = true := by
          rw [charListLe, if_pos h2]
        simp [this]
      · have e1 : charListLe (a :: as) (b :: bs) = charListLe as bs := by
          rw [charListLe, if_neg h1, if_neg h2]
        have e2 : charListLe (b :: bs) (a :: as) = charListLe bs as := by
          rw [charListLe, if_neg h2, if_neg h1]
        rw [e1, e2]
        exact charListLe_total as bs

theorem charListLe_trans : ∀ (a b c : List Char), charListLe a b = true →
    charListLe b c = true → charListLe a c = true
  | [], _, _, _, _ => rfl
  | a :: as, [], _, hab, _ => by rw [charListLe] at hab; exact absurd hab (by decide)
  | a :: as, b :: bs, [], _, hbc => by
    rw [charListLe] at hbc; exact absurd hbc (by decide)
  | a :: as, b :: bs, c :: cs, hab, hbc => by
    rw [charListLe] at hab hbc ⊢
    by_cases h1 : a.toNat < b.toNat
    · by_cases h2 : b.toNat < c.toNat
      · rw [if_pos (by omega)]
      · by_cases h2' : c.toNat < b.toNat
        · rw [if_neg h2, if_pos h2'] at hbc
          exact absurd hbc (by decide)
        · rw [if_pos (by omega)]
    · by_cases h1' : b.toNat < a.toNat
      · rw [if_neg h1, if_pos h1'] at hab
        exact absurd hab (by decide)
      · rw [if_neg h1, if_neg h1'] at hab
        by_cases h2 : b.toNat < c.toNat
        · rw [if_pos (by omega)]
        · by_cases h2' : c.toNat < b.toNat
          · rw [if_neg h2, if_pos h2'] at hbc
            exact absurd hbc (by decide)
          · rw [if_neg h2, if_neg h2'] at hbc
            rw [if_neg (by omega), if_neg (by omega)]
            exact charListLe_trans as bs cs hab hbc

theorem strLe_total (a b : String) : (strLe a b || strLe b a) = true :=
  charListLe_total a.data b.data

theorem strLe_trans {a b c : String} (hab : strLe a b = true)
    (hbc : strLe b c = true) : strLe a c = true :=
  charListLe_trans a.data b.data c.data hab hbc

theorem strLe_of_not_strLe {a b : String} (h : ¬ strLe a b = true) :
    strLe b a = true := by
  have htot := strLe_total a b
  rw [Bool.or_eq_true] at htot
  rcases htot with h1 | h1
  · exact absurd h1 h
  · exact h1

theorem mem_insertSorted {a b : String} {l : List String} :
    b ∈ insertSorted a l ↔ b = a ∨ b ∈ l := by
  induction l with
  | nil => simp [insertSorted]
  | cons c cs ih =>
    rw [insertSorted]
    split
    · simp [List.mem_cons]
    · rw [List.mem_cons, ih, List.mem_cons]
      tauto

theorem insertSorted_perm (a : String) (l : List String) :
    (insertSorted a l).Perm (a :: l) := by
  induction l with
  | nil => simp [insertSorted]
  | cons c cs ih =>
    rw [insertSorted]
    split
    · exact List.Perm.refl _
    · exact (ih.cons c).trans (List.Perm.swap a c cs)

theorem sortStrings_perm (l : List String) : (sortStrings l).Perm l := by
  induction l with
  | nil => exact List.Perm.refl _
  | cons a as ih =>
    rw [sortStrings]
    exact (insertSorted_perm a (sortStrings as)).trans (ih.cons a)

theorem pairwise_insertSorted {a : String} {l : List String}
    (h : l.Pairwise (fun x y => strLe x y = true)) :
    (insertSorted a l).Pairwise (fun x y => strLe x y = true) := by
  induction l with
  | nil => simp [insertSorted]
  | cons b bs ih =>
    rw [List.pairwise_cons] at h
    rw [insertSorted]
    split
    · rename_i hab
      refine List.Pairwise.cons ?_ (List.Pairwise.cons h.1 h.2)
      intro y hy
      rcases List.mem_cons.mp hy with rfl | hy'
      · exact hab
      · exact strLe_trans hab (h.1 y hy')
    · rename_i hab
      refine List.Pairwise.cons ?_ (ih h.2)
      intro y hy
      rcases mem_insertSorted.mp hy with rfl | hy'
      · exact strLe_of_not_strLe hab
      · exact h.1 y hy'

theorem sortStrings_pairwise (l : List String) :
    (sortStrings l).Pairwise (fun x y => strLe x y = true) := by
  induction l with
  | nil => simp [sortStrings]
  | cons a as ih =>
    rw [sortStrings]
    exact pairwise_insertSorted ih

/-! ## Facts about the `getDirectories` fold -/

theorem mem_addDir {m : String} {acc : List String} {f d : String} :
    d ∈ addDir m acc f ↔ d ∈ acc ∨
      (dirname (relative m f) = d ∧ d ≠ "" ∧ d ≠ m ∧ d ≠ ".") := by
  simp only [addDir]
  split
  · rename_i hcond
    split
    · rename_i hin
      constructor
      · exact Or.inl
      · rintro (h | ⟨rfl, _⟩)
        · exact h
        · exact hin
    · rw [List.mem_append, List.mem_singleton]
      constructor
      · rintro (h | rfl)
        · exact Or.inl h
        · exact Or.inr ⟨rfl, hcond⟩
      · rintro (h | ⟨rfl, _⟩)
        · exact Or.inl h
        · exact Or.inr rfl
  · rename_i hcond
    constructor
    · exact Or.inl
    · rintro (h | ⟨rfl, hc⟩)
      · exact h
      · exact absurd hc hcond

theorem mem_foldl_addDir (m : String) (files : List String) :
    ∀ (acc : List String) (d : String),
      d ∈ files.foldl (addDir m) acc ↔
        d ∈ acc ∨ ((∃ f ∈ files, dirname (relative m f) = d) ∧
          (d ≠ "" ∧ d ≠ m ∧ d ≠ ".")) := by
  induction files with
  | nil =>
    intro acc d
    simp
  | cons f fs ih =>
    intro acc d
    rw [List.foldl_cons, ih (addDir m acc f) d, mem_addDir]
    simp only [List.mem_cons]
    constructor
    · rintro ((h | ⟨h1, h2⟩) | ⟨⟨g, hg, hgd⟩, hc⟩)
      · exact Or.inl h
      · exact Or.inr ⟨⟨f, Or.inl rfl, h1⟩, h2⟩
      · exact Or.inr ⟨⟨g, Or.inr hg, hgd⟩, hc⟩
    · rintro (h | ⟨⟨g, hg | hg, hgd⟩, hc⟩)
      · exact Or.inl (Or.inl h)
      · exact Or.inl (Or.inr ⟨hg ▸ hgd, hc⟩)
      · exact Or.inr ⟨⟨g, hg, hgd⟩, hc⟩

theorem nodup_addDir {m : String} {acc : List String} {f : String}
    (h : acc.Nodup) : (addDir m acc f).Nodup := by
  simp only [addDir]
  split
  · split
    · exact h
    · rename_i hin
      exact List.Nodup.append h (List.nodup_singleton _) (by simpa using hin)
  · exact h

theorem nodup_foldl_addDir (m : String) (files : List String) :
    ∀ acc : List String, acc.Nodup → (files.foldl (addDir m) acc).Nodup := by
  induction files with
  | nil =>
    intro acc h
    exact h
  | cons f fs ih =>
    intro acc h
    rw [List.foldl_cons]
    exact ih _ (nodup_addDir h)

theorem mem_getDirectories {files : List String} {m d : String} :
    d ∈ getDirectories files m ↔
      ((∃ f ∈ files, dirname (relative m f) = d) ∧
        (d ≠ "" ∧ d ≠ m ∧ d ≠ ".")) := by
  unfold getDirectories
  rw [(sortStrings_perm _).mem_iff, mem_foldl_addDir]
  simp

theorem nodup_getDirectories (files : List String) (m : String) :
    (getDirectories files m).Nodup := by
  unfold getDirectories
  rw [(sortStrings_perm _).nodup_iff]
  exact nodup_foldl_addDir m files [] List.nodup_nil


/-! ## Shape of the paths produced by the tree walker -/

theorem validNameB_parts {n : String} (h : validNameB n = true) :
    n.data ≠ [] ∧ '/' ∉ n.data ∧ n ≠ "." ∧ n ≠ ".." := by
  unfold validNameB at h
  simp only [Bool.and_eq_true] at h
  obtain ⟨⟨⟨h1, h2⟩, h3⟩, h4⟩ := h
  rw [Bool.not_eq_true'] at h1 h2
  rw [Bool.not_eq_true', beq_eq_false_iff_ne] at h3 h4
  refine ⟨List.isEmpty_eq_false.mp h1, ?_, h3, h4⟩
  intro hmem
  have hc : n.data.contains '/' = true := List.elem_eq_true_of_mem hmem
  rw [hc] at h2
  exact absurd h2 (by decide)

theorem segOk_of_validNameB {n : String} (h : validNameB n = true) : SegOk n :=
  ⟨(validNameB_parts h).1, (validNameB_parts h).2.1⟩

mutual
theorem filesUnder_shape (t : FsTree) (rl : List String) (f : String)
    (hv : validTree t = true) (hrl : ∀ s ∈ rl, SegOk s)
    (hf : f ∈ filesUnder t (renderAbs rl)) :
    ∃ segs : List String, (∀ s ∈ segs, validNameB s = true) ∧
      f = renderAbs (rl ++ segs) := by
  cases t with
  | file =>
    rw [filesUnder, List.mem_singleton] at hf
    exact ⟨[], by simp, by simpa using hf⟩
  | dir es =>
    rw [filesUnder] at hf
    rw [validTree] at hv
    obtain ⟨segs, _, hval, heq⟩ := filesUnderList_shape es rl f hv hrl hf
    exact ⟨segs, hval, heq⟩

theorem filesUnderList_shape (es : List (String × FsTree)) (rl : List String)
    (f : String) (hv : validEntries es = true) (hrl : ∀ s ∈ rl, SegOk s)
    (hf : f ∈ filesUnderList es (renderAbs rl)) :
    ∃ segs : List String, segs ≠ [] ∧ (∀ s ∈ segs, validNameB s = true) ∧
      f = renderAbs (rl ++ segs) := by
  match es with
  | [] =>
    rw [filesUnderList] at hf
    exact absurd hf (List.not_mem_nil f)
  | (n, t) :: rest =>
    rw [filesUnderList, List.mem_append] at hf
    rw [validEntries, Bool.and_eq_true, Bool.and_eq_true] at hv
    obtain ⟨⟨hn, ht⟩, hrest⟩ := hv
    rcases hf with hf | hf
    · rw [pjoin_renderAbs n hrl] at hf
      have hrl' : ∀ s ∈ rl ++ [n], SegOk s := by
        intro s hs
        rcases List.mem_append.mp hs with hs | hs
        · exact hrl s hs
        · rw [List.mem_singleton] at hs
          exact hs ▸ segOk_of_validNameB hn
      obtain ⟨segs, hval, heq⟩ := filesUnder_shape t (rl ++ [n]) f ht hrl' hf
      refine ⟨n :: segs, List.cons_ne_nil n segs, ?_, ?_⟩
      · intro s hs
        rcases List.mem_cons.mp hs with rfl | hs
        · exact hn
        · exact hval s hs
      · rw [heq]
        congr 1
        simp
    · exact filesUnderList_shape rest rl f hrest hrl hf
end

/-! ## Per-file path facts for walker-produced files -/

theorem relative_walk_file {rl segs : List String}
    (hrl : ∀ s ∈ rl, SegOk s) (hsegs : ∀ s ∈ segs, SegOk s) :
    relative (renderAbs rl) (renderAbs (rl ++ segs)) = renderRel segs := by
  unfold relative
  rw [pathSegs_renderAbs hrl,
    pathSegs_renderAbs (fun s hs => (List.mem_append.mp hs).elim (hrl s) (hsegs s)),
    relSegs_append]

theorem dirname_walk_file_root {rl segs : List String}
    (hrl : ∀ s ∈ rl, SegOk s) (hsegs : ∀ s ∈ segs, SegOk s)
    (hne : segs ≠ []) (hdrop : segs.dropLast = []) :
    dirname (renderAbs (rl ++ segs)) = renderAbs rl := by
  have hall : ∀ s ∈ rl ++ segs, SegOk s :=
    fun s hs => (List.mem_append.mp hs).elim (hrl s) (hsegs s)
  rw [dirname_renderAbs hall, List.dropLast_append_of_ne_nil rl hne, hdrop,
    List.append_nil]
  cases hrl' : rl with
  | nil =>
    rw [if_pos rfl]
    exact renderAbs_nil.symm
  | cons a t =>
    rw [if_neg (by simp)]

theorem dirname_walk_file_nested {rl segs : List String}
    (hrl : ∀ s ∈ rl, SegOk s) (hsegs : ∀ s ∈ segs, SegOk s)
    (hne : segs ≠ []) (hdrop : segs.dropLast ≠ []) :
    dirname (renderAbs (rl ++ segs)) = renderAbs (rl ++ segs.dropLast) ∧
      dirname (renderAbs (rl ++ segs)) ≠ renderAbs rl := by
  have hall : ∀ s ∈ rl ++ segs, SegOk s :=
    fun s hs => (List.mem_append.mp hs).elim (hrl s) (hsegs s)
  have hall' : ∀ s ∈ rl ++ segs.dropLast, SegOk s := by
    intro s hs
    rcases List.mem_append.mp hs with hs | hs
    · exact hrl s hs
    · exact hsegs s (List.mem_of_mem_dropLast hs)
  have hd : dirname (renderAbs (rl ++ segs)) = renderAbs (rl ++ segs.dropLast) := by
    rw [dirname_renderAbs hall, List.dropLast_append_of_ne_nil rl hne,
      if_neg (by simp [hdrop])]
  refine ⟨hd, ?_⟩
  rw [hd]
  intro heq
  have := renderAbs_inj hall' hrl heq
  have : segs.dropLast = [] := by
    have hlen := congrArg List.length this
    rw [List.length_append] at hlen
    exact List.eq_nil_of_length_eq_zero (by omega)
  exact hdrop this

theorem dirname_relative_walk_root {rl segs : List String}
    (hrl : ∀ s ∈ rl, SegOk s) (hsegs : ∀ s ∈ segs, SegOk s)
    (hdrop : segs.dropLast = []) :
    dirname (relative (renderAbs rl) (renderAbs (rl ++ segs))) = "." := by
  rw [relative_walk_file hrl hsegs, dirname_renderRel hsegs, if_pos hdrop]

theorem dirname_relative_walk_nested {rl segs : List String}
    (hrl : ∀ s ∈ rl, SegOk s) (hsegs : ∀ s ∈ segs, SegOk s)
    (hvalid : ∀ s ∈ segs, validNameB s = true)
    (hdrop : segs.dropLast ≠ []) :
    dirname (relative (renderAbs rl) (renderAbs (rl ++ segs))) =
        renderRel segs.dropLast ∧
      renderRel segs.dropLast ≠ "" ∧
      renderRel segs.dropLast ≠ "." ∧
      renderRel segs.dropLast ≠ renderAbs rl ∧
      renderRel segs.dropLast ≠ "./" := by
  have hsegs' : ∀ s ∈ segs.dropLast, SegOk s :=
    fun s hs => hsegs s (List.mem_of_mem_dropLast hs)
  refine ⟨?_, ?_, ?_, ?_, ?_⟩
  · rw [relative_walk_file hrl hsegs, dirname_renderRel hsegs, if_neg hdrop]
  · exact ne_empty_of_data_ne_nil (renderRel_data_ne_nil hsegs' hdrop)
  · intro heq
    have hp := pathSegs_renderRel hsegs'
    rw [heq] at hp
    have : ("." : String) ∈ segs.dropLast := by
      rw [← hp]
      decide
    have hval := hvalid "." (List.mem_of_mem_dropLast this)
    exact absurd hval (by decide)
  · exact fun heq =>
      abs_ne_rel (isAbs_renderAbs rl) (isAbs_renderRel hsegs') heq.symm
  · exact renderRel_ne_dotslash hsegs'


/-! ## Derived facts feeding the claim theorems -/

/-- The plan `createFileShare` builds on a directory root, written out. -/
theorem createFileShare_dir_eq (es : List (String × FsTree)) (root : String) :
    createFileShare (some (.dir es)) root =
      .ok { directories := getDirectories (filesUnderList es root) root,
            files :=
              (categorizeFiles (filesUnderList es root) root).1.map (fun file =>
                { name := basename file, source := file, path? := none,
                  dependsOn := getDirectories (filesUnderList es root) root }) ++
              (categorizeFiles (filesUnderList es root) root).2.map (fun file =>
                { name := basename file, source := file,
                  path? := some (if dirname (relative root file) = "./" then "./"
                    else dirname (relative root file)),
                  dependsOn := getDirectories (filesUnderList es root) root }) } :=
  rfl

/-- Each file the walker yields below a valid tree is either root-level — its
`dirname` is the root and its relative parent is `"."` — or nested, with a
relative parent that is none of `""`, `"."`, the root, or `"./"`. -/
theorem walk_file_dichotomy {es : List (String × FsTree)} {rl : List String}
    {f : String} (hv : validEntries es = true)
    (hr : ∀ s ∈ rl, validNameB s = true)
    (hf : f ∈ filesUnderList es (renderAbs rl)) :
    (dirname f = renderAbs rl ∧
      dirname (relative (renderAbs rl) f) = ".") ∨
    (dirname f ≠ renderAbs rl ∧
      dirname (relative (renderAbs rl) f) ≠ "" ∧
      dirname (relative (renderAbs rl) f) ≠ "." ∧
      dirname (relative (renderAbs rl) f) ≠ renderAbs rl ∧
      dirname (relative (renderAbs rl) f) ≠ "./") := by
  have hrl : ∀ s ∈ rl, SegOk s := fun s hs => segOk_of_validNameB (hr s hs)
  obtain ⟨segs, hne, hval, rfl⟩ := filesUnderList_shape es rl f hv hrl hf
  have hsegs : ∀ s ∈ segs, SegOk s := fun s hs => segOk_of_validNameB (hval s hs)
  by_cases hdrop : segs.dropLast = []
  · exact Or.inl ⟨dirname_walk_file_root hrl hsegs hne hdrop,
      dirname_relative_walk_root hrl hsegs hdrop⟩
  · obtain ⟨hdir, hroot⟩ := dirname_walk_file_nested hrl hsegs hne hdrop
    obtain ⟨hrel, h1, h2, h3, h4⟩ :=
      dirname_relative_walk_nested hrl hsegs hval hdrop
    rw [hrel]
    exact Or.inr ⟨hroot, h1, h2, h3, h4⟩

/-- On a valid tree the directory count of `getDirectories` equals the number
of distinct relative parent directories of the nested files. -/
theorem directories_length_eq (es : List (String × FsTree)) (rl : List String)
    (hv : validEntries es = true) (hr : ∀ s ∈ rl, validNameB s = true) :
    (getDirectories (filesUnderList es (renderAbs rl)) (renderAbs rl)).length =
      (distinctNestedDirs (filesUnderList es (renderAbs rl))
        (renderAbs rl)).length := by
  unfold getDirectories
  rw [(sortStrings_perm _).length_eq]
  have hA : ((filesUnderList es (renderAbs rl)).foldl (addDir (renderAbs rl)) []).Nodup :=
    nodup_foldl_addDir _ _ [] List.nodup_nil
  have hB : (distinctNestedDirs (filesUnderList es (renderAbs rl))
      (renderAbs rl)).Nodup := List.nodup_dedup _
  refine ((List.perm_ext_iff_of_nodup hA hB).mpr ?_).length_eq
  intro d
  rw [mem_foldl_addDir]
  unfold distinctNestedDirs
  rw [List.mem_dedup, List.mem_map]
  simp only [List.mem_filter, bne_iff_ne, ne_eq, List.not_mem_nil, false_or]
  constructor
  · rintro ⟨⟨f, hf, rfl⟩, hc⟩
    refine ⟨f, ⟨hf, ?_⟩, rfl⟩
    rcases walk_file_dichotomy hv hr hf with ⟨_, h2⟩ | ⟨h1, _⟩
    · exact absurd h2 hc.2.2
    · exact h1
  · rintro ⟨f, ⟨hf, hne⟩, rfl⟩
    rcases walk_file_dichotomy hv hr hf with ⟨h1, _⟩ | ⟨_, h2, h3, h4, _⟩
    · exact absurd h1 hne
    · exact ⟨⟨f, hf, rfl⟩, h2, h4, h3⟩

/-! ## The claims -/

/-- C5: for every file list and root, `getDirectories` returns exactly the
values `dirname (relative root file)` over the input files excluding `""`,
`"."` and the root itself, with duplicates collapsed (the result has no
duplicate) and sorted ascending by the code-unit string order. -/
theorem getDirectories_extractor_spec (files : List String) (root : String) :
    (∀ d, d ∈ getDirectories files root ↔
      ((∃ f ∈ files, dirname (relative root f) = d) ∧
        (d ≠ "" ∧ d ≠ "." ∧ d ≠ root))) ∧
    (getDirectories files root).Nodup ∧
    (getDirectories files root).Pairwise (fun a b => strLe a b = true) := by
  refine ⟨?_, nodup_getDirectories files root, ?_⟩
  · intro d
    rw [mem_getDirectories]
    tauto
  · unfold getDirectories
    exact sortStrings_pairwise _

/-- C7: building a plan on a missing root fails with `notFound`
(`ENOENT`, the spec's `NotFoundError`), and on a root that is a regular file
with `notADirectory` (`ENOTDIR`, the spec's `NotADirectoryError`); the walker
error surfaces unchanged and no plan is produced. -/
theorem plan_errors_on_bad_root (root : String) :
    createFileShare none root = Except.error FsError.notFound ∧
    createFileShare (some FsTree.file) root =
      Except.error FsError.notADirectory :=
  ⟨rfl, rfl⟩

/-- C9: the `=== './'` conditional guarding the nested file's remote path is
dead — `dirname` never returns `"./"` — so the plan builder is equal to the
variant that emits `dirname relativePath` unconditionally. -/
theorem conditional_path_emission_redundant (node : Option FsTree)
    (root : String) :
    createFileShare node root = createFileShareUnconditional node root := by
  match node with
  | none => rfl
  | some .file => rfl
  | some (.dir es) =>
    simp only [createFileShare, createFileShareUnconditional, getAllFiles]
    congr 2
    congr 1
    apply List.map_eq_map_iff.mpr
    intro file _
    rw [if_neg (dirname_ne_dotslash (relative root file))]

/-- The two extractor loop bodies agree whenever the mount directory is an
absolute path: the computed relative parent is never absolute, hence never
equal to the mount directory. -/
theorem addDir_eq_noRootCheck {root : String} (h : isAbs root = true)
    (acc : List String) (f : String) :
    addDir root acc f = addDirNoRootCheck root acc f := by
  simp only [addDir, addDirNoRootCheck]
  have hne : dirname (relative root f) ≠ root :=
    fun he => abs_ne_rel h (isAbs_dirname_relative root f) he.symm
  by_cases h1 : dirname (relative root f) ≠ "" ∧ dirname (relative root f) ≠ "."
  · rw [if_pos ⟨h1.1, hne, h1.2⟩, if_pos h1]
  · rw [if_neg (fun hc => h1 ⟨hc.1, hc.2.2⟩), if_neg h1]

/-- The fold of the two loop bodies agrees on every accumulator when the
mount directory is absolute. -/
theorem foldl_addDir_eq_noRootCheck {root : String} (h : isAbs root = true)
    (files : List String) : ∀ acc : List String,
    files.foldl (addDir root) acc = files.foldl (addDirNoRootCheck root) acc := by
  induction files with
  | nil =>
    intro acc
    rfl
  | cons f fs ih =>
    intro acc
    rw [List.foldl_cons, List.foldl_cons, addDir_eq_noRootCheck h acc f]
    exact ih _

/-- C10: with an absolute root the exclusion of the root path itself inside
`getDirectories` never fires, so the extractor equals the spec-modelled
variant that only excludes `""` and `"."`. -/
theorem root_exclusion_redundant (files : List String) (root : String)
    (h : isAbs root = true) :
    getDirectories files root = getDirectoriesNoRootCheck files root := by
  unfold getDirectories getDirectoriesNoRootCheck
  rw [foldl_addDir_eq_noRootCheck h files []]

theorem root_exclusion_redundant_witness :
    isAbs "/m" = true ∧
      getDirectories ["/m/sub/b.txt"] "/m" =
        getDirectoriesNoRootCheck ["/m/sub/b.txt"] "/m" :=
  ⟨by decide, root_exclusion_redundant ["/m/sub/b.txt"] "/m" (by decide)⟩

/-- C4 counterexample: `categorizeFiles` — the classification step — cannot
fail at all; on a file that is not under the root it still produces a
classification (as a nested file) instead of surfacing a `PathEscapeError`. -/
theorem classification_total_outside_root :
    categorizeFiles ["/outside/x.txt"] "/root" = ([], ["/outside/x.txt"]) := by
  decide

/-- C4 (amended): classification never fails; a file whose `dirname` is not
the root — in particular any file outside the root — is classified as a
nested file, and no `PathEscapeError` exists in the code. -/
theorem outside_file_classified_as_nested (files : List String)
    (root f : String) (hf : f ∈ files) (h : dirname f ≠ root) :
    f ∈ (categorizeFiles files root).2 := by
  unfold categorizeFiles
  rw [List.partition_eq_filter_filter]
  simp only [List.mem_filter, Function.comp_apply, Bool.not_eq_true',
    beq_eq_false_iff_ne, ne_eq]
  exact ⟨hf, h⟩

theorem outside_file_classified_as_nested_witness :
    "/outside/x.txt" ∈ (["/outside/x.txt"] : List String) ∧
      dirname "/outside/x.txt" ≠ "/root" ∧
      "/outside/x.txt" ∈ (categorizeFiles ["/outside/x.txt"] "/root").2 :=
  ⟨by decide, by decide,
    outside_file_classified_as_nested ["/outside/x.txt"] "/root" "/outside/x.txt"
      (by decide) (by decide)⟩


/-- C2: every RemoteFile the plan emits — root-level or nested — carries a
dependency set equal to the full RemoteDirectory set of that plan, not just
its own parent directory. -/
theorem files_depend_on_full_directory_set (node : Option FsTree)
    (root : String) (plan : MirrorPlan)
    (h : createFileShare node root = Except.ok plan) :
    ∀ rf ∈ plan.files, rf.dependsOn = plan.directories := by
  match node with
  | none => exact absurd h (by simp [createFileShare, getAllFiles])
  | some .file => exact absurd h (by simp [createFileShare, getAllFiles])
  | some (.dir es) =>
    rw [createFileShare_dir_eq, Except.ok.injEq] at h
    subst h
    intro rf hrf
    rcases List.mem_append.mp hrf with hm | hm <;>
      · obtain ⟨f, _, rfl⟩ := List.mem_map.mp hm
        rfl

/-- C6: a file is classified as root-level exactly when its `dirname` equals
the root, and a RemoteFile's remote directory is absent exactly when its
source is such a root-level file. -/
theorem root_level_classification (node : Option FsTree) (root : String)
    (plan : MirrorPlan) (h : createFileShare node root = Except.ok plan) :
    (∀ (files : List String) (f : String),
      f ∈ (categorizeFiles files root).1 ↔ f ∈ files ∧ dirname f = root) ∧
    (∀ rf ∈ plan.files, (rf.path? = none ↔ dirname rf.source = root)) := by
  have hclass : ∀ (files : List String) (f : String),
      f ∈ (categorizeFiles files root).1 ↔ f ∈ files ∧ dirname f = root := by
    intro files f
    unfold categorizeFiles
    rw [List.partition_eq_filter_filter, List.mem_filter]
    simp only [beq_iff_eq]
  refine ⟨hclass, ?_⟩
  match node with
  | none => exact absurd h (by simp [createFileShare, getAllFiles])
  | some .file => exact absurd h (by simp [createFileShare, getAllFiles])
  | some (.dir es) =>
    rw [createFileShare_dir_eq, Except.ok.injEq] at h
    subst h
    intro rf hrf
    rcases List.mem_append.mp hrf with hm | hm
    · obtain ⟨f, hf, rfl⟩ := List.mem_map.mp hm
      have hd := (hclass (filesUnderList es root) f).mp hf
      exact ⟨fun _ => hd.2, fun _ => rfl⟩
    · obtain ⟨f, hf, rfl⟩ := List.mem_map.mp hm
      have hd : dirname f ≠ root := by
        unfold categorizeFiles at hf
        rw [List.partition_eq_filter_filter] at hf
        simp only [List.mem_filter, Function.comp_apply, Bool.not_eq_true',
          beq_eq_false_iff_ne, ne_eq] at hf
        exact hf.2
      constructor
      · intro hnone
        exact absurd hnone (by simp)
      · intro hroot
        exact absurd hroot hd

/-- C8: no plan contains a fileless RemoteDirectory — every planned directory
is the relative parent of at least one enumerated file, so empty directories
are never materialized. -/
theorem no_fileless_directory (node : Option FsTree) (root : String)
    (plan : MirrorPlan) (h : createFileShare node root = Except.ok plan) :
    ∀ d ∈ plan.directories, ∃ files,
      getAllFiles node root = Except.ok files ∧
      ∃ f ∈ files, dirname (relative root f) = d := by
  match node with
  | none => exact absurd h (by simp [createFileShare, getAllFiles])
  | some .file => exact absurd h (by simp [createFileShare, getAllFiles])
  | some (.dir es) =>
    rw [createFileShare_dir_eq, Except.ok.injEq] at h
    subst h
    intro d hd
    exact ⟨filesUnderList es root, rfl, (mem_getDirectories.mp hd).1⟩

/-- C1: on a valid root tree the plan holds exactly one RemoteDirectory per
distinct non-root relative parent directory, exactly one RemoteFile per
enumerated file, and the root/nested classification partitions the files:
`|rootFiles| + |subdirFiles| = N`. -/
theorem plan_counts (es : List (String × FsTree)) (rl : List String)
    (plan : MirrorPlan) (hv : validEntries es = true)
    (hr : ∀ s ∈ rl, validNameB s = true)
    (h : createFileShare (some (.dir es)) (renderAbs rl) = Except.ok plan) :
    plan.directories.length =
      (distinctNestedDirs (filesUnderList es (renderAbs rl))
        (renderAbs rl)).length ∧
    plan.files.length = (filesUnderList es (renderAbs rl)).length ∧
    (categorizeFiles (filesUnderList es (renderAbs rl))
        (renderAbs rl)).1.length +
      (categorizeFiles (filesUnderList es (renderAbs rl))
        (renderAbs rl)).2.length =
      (filesUnderList es (renderAbs rl)).length := by
  rw [createFileShare_dir_eq, Except.ok.injEq] at h
  subst h
  have hpart : (categorizeFiles (filesUnderList es (renderAbs rl))
        (renderAbs rl)).1.length +
      (categorizeFiles (filesUnderList es (renderAbs rl))
        (renderAbs rl)).2.length =
      (filesUnderList es (renderAbs rl)).length := by
    unfold categorizeFiles
    rw [List.partition_eq_filter_filter]
    have hp := (List.filter_append_perm
      (fun file => dirname file == renderAbs rl)
      (filesUnderList es (renderAbs rl))).length_eq
    rw [List.length_append] at hp
    exact hp
  refine ⟨directories_length_eq es rl hv hr, ?_, hpart⟩
  simp only [List.length_append, List.length_map]
  exact hpart

/-- C3: every RemoteFile whose remote directory is present references a
directory that belongs to the same plan's RemoteDirectory set. -/
theorem nested_file_references_plan_directory (es : List (String × FsTree))
    (rl : List String) (plan : MirrorPlan) (hv : validEntries es = true)
    (hr : ∀ s ∈ rl, validNameB s = true)
    (h : createFileShare (some (.dir es)) (renderAbs rl) = Except.ok plan) :
    ∀ rf ∈ plan.files, ∀ d, rf.path? = some d → d ∈ plan.directories := by
  rw [createFileShare_dir_eq, Except.ok.injEq] at h
  subst h
  intro rf hrf d hd
  rcases List.mem_append.mp hrf with hm | hm
  · obtain ⟨f, hf, rfl⟩ := List.mem_map.mp hm
    exact absurd hd (by simp)
  · obtain ⟨f, hf, rfl⟩ := List.mem_map.mp hm
    rw [Option.some.injEq, if_neg (dirname_ne_dotslash _)] at hd
    subst hd
    have hff : f ∈ filesUnderList es (renderAbs rl) := by
      unfold categorizeFiles at hf
      rw [List.partition_eq_filter_filter] at hf
      exact (List.mem_filter.mp hf).1
    have hfne : dirname f ≠ renderAbs rl := by
      unfold categorizeFiles at hf
      rw [List.partition_eq_filter_filter] at hf
      simp only [List.mem_filter, Function.comp_apply, Bool.not_eq_true',
        beq_eq_false_iff_ne, ne_eq] at hf
      exact hf.2
    rcases walk_file_dichotomy hv hr hff with ⟨h1, _⟩ | ⟨_, h2, h3, h4, _⟩
    · exact absurd h1 hfne
    · exact mem_getDirectories.mpr ⟨⟨f, hff, rfl⟩, h2, h4, h3⟩

/-! ## Concrete witnesses -/

/-- A small concrete tree for the witnesses: one root-level file `a.txt` and
one nested file `sub/b.txt`. -/
def sampleEntries : List (String × FsTree) :=
  [("a.txt", .file), ("sub", .dir [("b.txt", .file)])]

/-- The plan `createFileShare` builds for `sampleEntries` mounted at `/m`. -/
def samplePlan : MirrorPlan :=
  { directories := ["sub"],
    files :=
      [{ name := "a.txt", source := "/m/a.txt", path? := none,
         dependsOn := ["sub"] },
       { name := "b.txt", source := "/m/sub/b.txt", path? := some "sub",
         dependsOn := ["sub"] }] }

theorem files_depend_on_full_directory_set_witness :
    createFileShare (some (.dir sampleEntries)) "/m" = Except.ok samplePlan ∧
      ∀ rf ∈ samplePlan.files, rf.dependsOn = samplePlan.directories :=
  ⟨rfl, files_depend_on_full_directory_set (some (.dir sampleEntries))
    "/m" samplePlan rfl⟩

theorem root_level_classification_witness :
    createFileShare (some (.dir sampleEntries)) "/m" = Except.ok samplePlan ∧
      ((∀ (files : List String) (f : String),
        f ∈ (categorizeFiles files "/m").1 ↔ f ∈ files ∧ dirname f = "/m") ∧
      ∀ rf ∈ samplePlan.files, (rf.path? = none ↔ dirname rf.source = "/m")) :=
  ⟨rfl, root_level_classification (some (.dir sampleEntries)) "/m"
    samplePlan rfl⟩

theorem no_fileless_directory_witness :
    createFileShare (some (.dir sampleEntries)) "/m" = Except.ok samplePlan ∧
      ∀ d ∈ samplePlan.directories, ∃ files,
        getAllFiles (some (.dir sampleEntries)) "/m" = Except.ok files ∧
        ∃ f ∈ files, dirname (relative "/m" f) = d :=
  ⟨rfl, no_fileless_directory (some (.dir sampleEntries)) "/m"
    samplePlan rfl⟩

theorem plan_counts_witness :
    validEntries sampleEntries = true ∧
    (∀ s ∈ ["m"], validNameB s = true) ∧
    createFileShare (some (.dir sampleEntries)) (renderAbs ["m"]) =
      Except.ok samplePlan ∧
    (samplePlan.directories.length =
      (distinctNestedDirs (filesUnderList sampleEntries (renderAbs ["m"]))
        (renderAbs ["m"])).length ∧
    samplePlan.files.length =
      (filesUnderList sampleEntries (renderAbs ["m"])).length ∧
    (categorizeFiles (filesUnderList sampleEntries (renderAbs ["m"]))
        (renderAbs ["m"])).1.length +
      (categorizeFiles (filesUnderList sampleEntries (renderAbs ["m"]))
        (renderAbs ["m"])).2.length =
      (filesUnderList sampleEntries (renderAbs ["m"])).length) :=
  ⟨by decide, by decide, rfl,
    plan_counts sampleEntries ["m"] samplePlan (by decide) (by decide) rfl⟩

theorem nested_file_references_plan_directory_witness :
    validEntries sampleEntries = true ∧
    (∀ s ∈ ["m"], validNameB s = true) ∧
    createFileShare (some (.dir sampleEntries)) (renderAbs ["m"]) =
      Except.ok samplePlan ∧
    ∀ rf ∈ samplePlan.files, ∀ d, rf.path? = some d →
      d ∈ samplePlan.directories :=
  ⟨by decide, by decide, rfl,
    nested_file_references_plan_directory sampleEntries ["m"] samplePlan
      (by decide) (by decide) rfl⟩

end FileShare
